import Mathlib

/-!
Verification development for the indiamart-textile-scraper repository.

The Python sources are shallowly embedded:
* a pandas DataFrame becomes a `Table`: an ordered list of column names
  together with rows, each row an association list from column name to `Cell`
  (a missing key reads as `Cell.null`, matching how pandas surfaces NaN for
  keys a record does not carry);
* the price regex of `etl/data_cleaner.py` is embedded as an explicit
  leftmost-match search with the alternation / greediness behaviour of
  Python `re.search` for this concrete pattern;
* the spider's listing handler and specification matcher from
  `indiamart_scraper/spiders/textiles_spider.py` become pure functions on
  lists.
-/

namespace Indiamart

/-- Value stored in one cell of a table: null (pandas NaN), a string, or a
number (floats are modelled as rationals). -/
inductive Cell where
  | null : Cell
  | s (v : String) : Cell
  | n (v : Rat) : Cell
deriving DecidableEq

/-- One record: an association list from column name to cell value. -/
abbrev Row := List (String × Cell)

/-- Read a field of a record; a missing key reads as null (pandas NaN). -/
def rget (r : Row) (name : String) : Cell :=
  match r with
  | [] => Cell.null
  | (k, v) :: rest => if k = name then v else rget rest name

/-- Write a field of a record: overwrite the first binding of the key, or
append a new binding when the key is absent (a new DataFrame column). -/
def rset (r : Row) (name : String) (v : Cell) : Row :=
  match r with
  | [] => [(name, v)]
  | (k, w) :: rest => if k = name then (name, v) :: rest else (k, w) :: rset rest name v

/-- A DataFrame: ordered column names plus the list of rows. -/
structure Table where
  cols : List String
  rows : List Row
deriving DecidableEq

/-- The sequence of values of one column, top to bottom. -/
def getCol (t : Table) (name : String) : List Cell :=
  t.rows.map (fun r => rget r name)

/-! ### Price normalizer (process_price in etl/data_cleaner.py)

The source applies the regex
(currency_symbol: rupee sign | Rs. | Rs | dollar | euro)? whitespace*
(new_price: [digits or commas]+ dot? digits*) (whitespace* / whitespace*
(unit: [a-zA-Z]+))? via pandas Series.str.extract, i.e. re.search per cell,
then strips commas from new_price, coerces it with pd.to_numeric, maps the
symbol through a currency table and fills INR only where a price parsed with
no mapped symbol. -/

/-- Whitespace characters recognised by Python's regex escape for spaces. -/
def wsChar (c : Char) : Bool :=
  c = ' ' || c = '\t' || c = '\n' || c = '\r' || c = '\x0b' || c = '\x0c'

/-- ASCII letter, the character class used for the unit token. -/
def asciiAlpha (c : Char) : Bool :=
  ('a' ≤ c && c ≤ 'z') || ('A' ≤ c && c ≤ 'Z')

/-- Digit or comma, the character class of the amount token. -/
def digitComma (c : Char) : Bool :=
  c.isDigit || c = ','

/-- The currency symbol alternatives of the regex, in alternation order.
The optional dot of the source pattern makes two alternatives, dotted first
(greedy). -/
inductive CurrencySym where
  | rupee : CurrencySym
  | rsDot : CurrencySym
  | rs : CurrencySym
  | dollar : CurrencySym
  | euro : CurrencySym
deriving DecidableEq

/-- Characters each symbol alternative consumes. -/
def symChars : CurrencySym → List Char
  | CurrencySym.rupee => ['₹']
  | CurrencySym.rsDot => ['R', 's', '.']
  | CurrencySym.rs => ['R', 's']
  | CurrencySym.dollar => ['$']
  | CurrencySym.euro => ['€']

/-- The fixed symbol-to-currency table of the source. -/
def currencyMap : CurrencySym → String
  | CurrencySym.rupee => "INR"
  | CurrencySym.rsDot => "INR"
  | CurrencySym.rs => "INR"
  | CurrencySym.dollar => "USD"
  | CurrencySym.euro => "EUR"

/-- Match the amount token: one or more digits/commas, then an optional dot
with trailing digits, all greedy. Returns (matched text, rest). -/
def matchNum (cs : List Char) : Option (List Char × List Char) :=
  let tok := cs.takeWhile digitComma
  if tok.isEmpty then none
  else
    match cs.drop tok.length with
    | '.' :: r2 =>
      let fr := r2.takeWhile Char.isDigit
      some (tok ++ '.' :: fr, r2.drop fr.length)
    | rest => some (tok, rest)

/-- Match the optional unit group: whitespace, a slash, whitespace, one or
more ASCII letters. Returns the captured unit token when the group matches. -/
def matchUnit (cs : List Char) : Option (List Char) :=
  match cs.dropWhile wsChar with
  | '/' :: r2 =>
    let u := (r2.dropWhile wsChar).takeWhile asciiAlpha
    if u.isEmpty then none else some u
  | _ => none

/-- After an (optional) symbol: skip whitespace, require the amount token,
then try the optional unit group. -/
def matchAfterSym (cs : List Char) : Option (List Char × Option (List Char)) :=
  match matchNum (cs.dropWhile wsChar) with
  | none => none
  | some (num, rest) => some (num, matchUnit rest)

/-- Captured groups of one match of the price regex. -/
structure PMatch where
  sym : Option CurrencySym
  num : List Char
  unitTok : Option (List Char)
deriving DecidableEq

/-- Try the symbol alternatives in alternation order at this position,
backtracking to the next alternative (finally to no symbol) whenever the
rest of the pattern fails after a symbol prefix matched. -/
def tryWithSym (cs : List Char) : List CurrencySym → Option PMatch
  | [] =>
    match matchAfterSym cs with
    | none => none
    | some (num, u) => some ⟨none, num, u⟩
  | sy :: rest =>
    if (symChars sy).isPrefixOf cs then
      match matchAfterSym (cs.drop (symChars sy).length) with
      | some (num, u) => some ⟨some sy, num, u⟩
      | none => tryWithSym cs rest
    else tryWithSym cs rest

/-- Attempt a match of the whole pattern anchored at this position. -/
def matchAt (cs : List Char) : Option PMatch :=
  tryWithSym cs [CurrencySym.rupee, CurrencySym.rsDot, CurrencySym.rs,
    CurrencySym.dollar, CurrencySym.euro]

/-- Leftmost match: slide the anchor right until the pattern matches,
exactly as re.search does. -/
def searchFrom : List Char → Option PMatch
  | [] => none
  | c :: cs =>
    match matchAt (c :: cs) with
    | some m => some m
    | none => searchFrom cs

/-- Value of a digit string read in base ten. -/
def digitsToNat (cs : List Char) : Nat :=
  cs.foldl (fun n c => n * 10 + (c.toNat - 48)) 0

/-- pd.to_numeric with errors="coerce", restricted to the token shapes the
regex can produce after comma removal: digits, an optional dot, digits.
A token with no digit at all (empty, or a bare dot) coerces to NaN. -/
def toNumeric (cs : List Char) : Option Rat :=
  let ip := cs.takeWhile Char.isDigit
  let rest := cs.drop ip.length
  if rest.isEmpty then
    if ip.isEmpty then none else some (mkRat (digitsToNat ip) 1)
  else if rest.head? = some '.' then
    if rest.tail.all Char.isDigit then
      if ip.isEmpty && rest.tail.isEmpty then none
      else some (mkRat (digitsToNat ip * 10 ^ rest.tail.length + digitsToNat rest.tail)
        (10 ^ rest.tail.length))
    else none
  else none

/-- Parsed price triple: amount, unit and currency, each possibly null. -/
structure PriceOut where
  amount : Option Rat
  unitName : Option String
  currency : Option String
deriving DecidableEq

/-- Turn the captured groups of one match into the amount / unit / currency
triple, following the column assignments of process_price: commas are
stripped from the amount before numeric coercion; the unit is the captured
token; the currency is the mapped symbol when one was captured, otherwise
INR when (and only when) the amount parsed. -/
def priceOfMatch (m : PMatch) : PriceOut :=
  let amt := toNumeric (m.num.filter (fun c => c != ','))
  { amount := amt
    unitName := m.unitTok.map (fun u => String.mk u)
    currency :=
      match m.sym with
      | some sy => some (currencyMap sy)
      | none => if amt.isSome then some "INR" else none }

/-- Per-cell price parsing: a non-string cell (NaN, or numeric) yields the
all-null triple, exactly as Series.str.extract does. -/
def pricePartsOfCell (c : Cell) : PriceOut :=
  match c with
  | Cell.s str =>
    match searchFrom str.data with
    | some m => priceOfMatch m
    | none => ⟨none, none, none⟩
  | _ => ⟨none, none, none⟩

/-- Wrap an optional rational as a cell. -/
def cellOfQOpt : Option Rat → Cell
  | some q => Cell.n q
  | none => Cell.null

/-- Wrap an optional string as a cell. -/
def cellOfSOpt : Option String → Cell
  | some v => Cell.s v
  | none => Cell.null

/-- Row-level effect of process_price: overwrite the price field with the
parsed amount, and write the unit and currency fields. -/
def priceRowUpdate (r : Row) : Row :=
  let o := pricePartsOfCell (rget r "price")
  rset (rset (rset r "price" (cellOfQOpt o.amount)) "unit" (cellOfSOpt o.unitName))
    "currency" (cellOfSOpt o.currency)

/-- Append a column name when it is not already present (the effect on the
column list of assigning a possibly new DataFrame column). -/
def addCol (cols : List String) (n : String) : List String :=
  if n ∈ cols then cols else cols ++ [n]

/-- process_price on a table: when a price column exists, rewrite it to the
parsed amount and add the unit and currency columns; otherwise skip. -/
def process_price (t : Table) : Table :=
  if "price" ∈ t.cols then
    ⟨addCol (addCol t.cols "unit") "currency", t.rows.map priceRowUpdate⟩
  else t

/-- A one-row batch holding only a raw price string. -/
def oneRowPriceTable (s : String) : Table :=
  ⟨["price"], [[("price", Cell.s s)]]⟩

/-! ### Canonicalizer / deduplicator (clean_data in etl/data_cleaner.py) -/

/-- Deduplication key of a record: its product_url cell. -/
def urlOf (r : Row) : Cell :=
  rget r "product_url"

/-- Keep the first occurrence of each product_url value, in batch order,
carrying the set of already seen keys. NaN keys compare equal, as pandas
drop_duplicates treats them. -/
def dedupGo (seen : List Cell) : List Row → List Row
  | [] => []
  | r :: rs =>
    if urlOf r ∈ seen then dedupGo seen rs
    else r :: dedupGo (urlOf r :: seen) rs

/-- drop_duplicates(subset=["product_url"], keep="first") on the rows. -/
def dedupRows (rows : List Row) : List Row :=
  dedupGo [] rows

/-- Step 1 of clean_data; raises KeyError when the subset column is
missing from the frame. -/
def dedupStep (t : Table) : Except String Table :=
  if "product_url" ∈ t.cols then Except.ok ⟨t.cols, dedupRows t.rows⟩
  else Except.error "KeyError: product_url"

/-- Write the sequential identifier i + 1 into row i (after reset_index,
the frame's index is the position, and product_id is set to index + 1). -/
def assignIds : List Row → Nat → List Row
  | [], _ => []
  | r :: rs, i => rset r "product_id" (Cell.n (mkRat (i + 1 : Nat) 1)) :: assignIds rs (i + 1)

/-- Steps 2 and 3 of clean_data: reset the index and overwrite (or create)
the product_id column with 1-based positions. -/
def idStep (t : Table) : Table :=
  ⟨addCol t.cols "product_id", assignIds t.rows 0⟩

/-- The scrape-only columns dropped by clean_data. -/
def dropNames : List String :=
  ["product_name", "product_url", "product_description", "images"]

/-- Step 5 of clean_data: drop the scrape-only columns that exist. -/
def dropStep (t : Table) : Table :=
  ⟨t.cols.filter (fun c => !(dropNames.contains c)),
   t.rows.map (fun r => r.filter (fun p => !(dropNames.contains p.1)))⟩

/-- Python list.remove: delete the first occurrence of x, or raise
ValueError when x is absent. -/
def pyRemove (l : List String) (x : String) : Except String (List String) :=
  match l with
  | [] => Except.error ("ValueError: " ++ x)
  | y :: ys =>
    if y = x then Except.ok ys
    else
      match pyRemove ys x with
      | Except.ok l2 => Except.ok (y :: l2)
      | Except.error e => Except.error e

/-- Reindex one record along the final column order (the row produced by
selecting df with a column list). -/
def reindexRow (cols : List String) (r : Row) : Row :=
  cols.map (fun c => (c, rget r c))

/-- Final step of clean_data: remove product_id, price, unit and currency
from the column list (each remove can raise), then select the columns in
the order identifier first, attributes, then price, unit, currency. -/
def reorderStep (t : Table) : Except String Table :=
  match pyRemove t.cols "product_id" with
  | Except.error e => Except.error e
  | Except.ok l1 =>
    match pyRemove l1 "price" with
    | Except.error e => Except.error e
    | Except.ok l2 =>
      match pyRemove l2 "unit" with
      | Except.error e => Except.error e
      | Except.ok l3 =>
        match pyRemove l3 "currency" with
        | Except.error e => Except.error e
        | Except.ok l4 =>
          Except.ok
            ⟨"product_id" :: (l4 ++ ["price", "unit", "currency"]),
             t.rows.map (reindexRow ("product_id" :: (l4 ++ ["price", "unit", "currency"])))⟩

/-- clean_data: empty frames are returned untouched; otherwise deduplicate,
assign sequential identifiers, parse prices, drop scrape-only columns and
reorder, propagating any raised exception. -/
def clean_data (t : Table) : Except String Table :=
  if t.rows.isEmpty || t.cols.isEmpty then Except.ok t
  else
    match dedupStep t with
    | Except.error e => Except.error e
    | Except.ok t1 => reorderStep (dropStep (process_price (idStep t1)))

/-- The four columns clean_data reorders by hand. -/
def reorderNames : List String :=
  ["product_id", "price", "unit", "currency"]

/-- Columns that survive into the middle block of the canonical order:
everything that is neither reordered by hand nor dropped as scrape-only. -/
def keepCol (c : String) : Bool :=
  !((reorderNames ++ dropNames).contains c)

/-! ### Spider: label normalization (textiles_spider.py line 129) -/

/-- Python str.strip: drop whitespace at both ends. -/
def pyStrip (cs : List Char) : List Char :=
  ((cs.dropWhile wsChar).reverse.dropWhile wsChar).reverse

/-- Embedding of key.strip().lower().replace(":", ""): trim, lowercase,
then delete every colon anywhere in the label. -/
def cleanKey (label : String) : String :=
  String.mk (((pyStrip label.data).map Char.toLower).filter (fun c => c != ':'))

/-- Drop a single trailing colon when one is present. -/
def stripTrailingColon (cs : List Char) : List Char :=
  if cs.getLast? = some ':' then cs.dropLast else cs

/-- Modelled from the spec words of the label-normalization claim: the label
lowercased, trimmed, with exactly one trailing colon (if present) removed
and colons elsewhere preserved. Stated for comparison with cleanKey. -/
def cleanKeyClaimed (label : String) : String :=
  String.mk (stripTrailingColon ((pyStrip label.data).map Char.toLower))

/-- Lowercasing by direct recursion (spec-side formulation). -/
def lowerAll : List Char → List Char
  | [] => []
  | c :: cs => Char.toLower c :: lowerAll cs

/-- Colon removal by direct recursion (spec-side formulation). -/
def removeColons : List Char → List Char
  | [] => []
  | c :: cs => if c = ':' then removeColons cs else c :: removeColons cs

/-- Amended spec-side normalization: the label trimmed, lowercased, and with
every colon removed wherever it occurs. -/
def cleanKeyAmendedSpec (label : String) : String :=
  String.mk (removeColons (lowerAll (pyStrip label.data)))

/-! ### Spider: specification matcher (textiles_spider.py lines 136-163) -/

/-- The canonical specification fields filled by the matcher. -/
structure SpecFields where
  fabric_type : Option String
  pattern : Option String
  gsm : Option String
  usage : Option String
  availability : Option String
deriving DecidableEq

/-- All fields start as None before the matching loop. -/
def initSpec : SpecFields :=
  ⟨none, none, none, none, none⟩

/-- Substring containment, the Python in-operator on strings. -/
def strContains (needle hay : String) : Bool :=
  decide (needle.data <:+: hay.data)

/-- Label matches the fabric/material synonym set by substring containment. -/
def fabricKey (k : String) : Bool :=
  strContains "fabric" k || strContains "material" k

/-- Label matches the pattern synonym. -/
def patternKey (k : String) : Bool :=
  strContains "pattern" k

/-- Label matches the gsm synonym. -/
def gsmKey (k : String) : Bool :=
  strContains "gsm" k

/-- Label matches the usage synonym. -/
def usageKey (k : String) : Bool :=
  strContains "usage" k

/-- Label matches the availability synonym. -/
def availabilityKey (k : String) : Bool :=
  strContains "availability" k

/-- Body of the matching loop: five independent if-statements, each
overwriting its canonical field whenever the label matches its synonym
set. They are not mutually exclusive. -/
def applyEntry (it : SpecFields) (kv : String × String) : SpecFields :=
  let it1 := if fabricKey kv.1 then { it with fabric_type := some kv.2 } else it
  let it2 := if patternKey kv.1 then { it1 with pattern := some kv.2 } else it1
  let it3 := if gsmKey kv.1 then { it2 with gsm := some kv.2 } else it2
  let it4 := if usageKey kv.1 then { it3 with usage := some kv.2 } else it3
  if availabilityKey kv.1 then { it4 with availability := some kv.2 } else it4

/-- The whole matching loop over the specification map entries in
insertion order, starting from the all-None item. -/
def matchSpecs (entries : List (String × String)) : SpecFields :=
  entries.foldl applyEntry initSpec

/-! ### Spider: listing-page handler (TextileSpider.parse) -/

/-- One product card of a listing page: its detail-page URL, when the
card carries one. -/
structure ProductCard where
  product_url : Option String
deriving DecidableEq

/-- A fetched listing page: its product cards in page order and the
optional next-page link. -/
structure ListingPage where
  cards : List ProductCard
  next_page_url : Option String
deriving DecidableEq

/-- A task emitted by the listing handler: fetch a detail page or fetch
the next listing page. -/
inductive CrawlTask where
  | detailFetch (url : String) : CrawlTask
  | listingFetch (url : String) : CrawlTask
deriving DecidableEq

/-- The card loop of TextileSpider.parse: for each card in page order,
emit a detail-fetch task when the card has a URL, nothing otherwise. -/
def parseCards : List ProductCard → List CrawlTask
  | [] => []
  | c :: cs =>
    match c.product_url with
    | some u => CrawlTask.detailFetch u :: parseCards cs
    | none => parseCards cs

/-- TextileSpider.parse on one listing page: the card loop, then one
listing-fetch task when a next-page link exists. -/
def parse (p : ListingPage) : List CrawlTask :=
  parseCards p.cards ++
    (match p.next_page_url with
     | some u => [CrawlTask.listingFetch u]
     | none => [])

/-- A specification label that contains a synonym of every canonical field. -/
def allSynLabel : String :=
  "fabricmaterialpatterngsmusageavailability"

/-- Sample record: first occurrence of url u1. -/
def rowU1a : Row :=
  [("product_url", Cell.s "u1"), ("fabric_type", Cell.s "cotton")]

/-- Sample record with the distinct url u2. -/
def rowU2 : Row :=
  [("product_url", Cell.s "u2")]

/-- Sample record: later duplicate of url u1 with different field values. -/
def rowU1b : Row :=
  [("product_url", Cell.s "u1"), ("fabric_type", Cell.s "silk")]

/-- Sample raw batch: three records, two sharing a url, one with missing
price and fabric fields. -/
def tExample : Table :=
  ⟨["product_url", "price", "fabric_type"],
   [[("product_url", Cell.s "u1"), ("price", Cell.s "₹ 10/Meter"), ("fabric_type", Cell.s "cotton")],
    [("product_url", Cell.s "u2")],
    [("product_url", Cell.s "u1"), ("price", Cell.s "$99"), ("fabric_type", Cell.s "silk")]]⟩

/-- Sample raw batch whose records carry no price field at all. -/
def tNoPrice : Table :=
  ⟨["product_url"], [[("product_url", Cell.s "u1")]]⟩

/-! ## Theorems -/

/-- Reading back the field just written. -/
theorem rget_rset_self (r : Row) (n : String) (v : Cell) : rget (rset r n v) n = v := by
  induction r with
  | nil => simp [rget, rset]
  | cons p rest ih =>
    by_cases h : p.1 = n <;> simp [rget, rset, h, ih]

/-- Writing one field leaves every other field unchanged. -/
theorem rget_rset_ne (r : Row) (n m : String) (v : Cell) (h : n ≠ m) :
    rget (rset r n v) m = rget r m := by
  induction r with
  | nil => simp [rget, rset, h]
  | cons p rest ih =>
    obtain ⟨k, w⟩ := p
    by_cases hk : k = n
    · subst hk
      simp [rget, rset, h, Ne.symm h]
    · by_cases hm : k = m <;> simp [rget, rset, hk, hm, ih, Ne.symm h]

/-- C1. Price parsing table: the six literal examples of the spec, pushed
through process_price on a one-row batch, produce exactly the stated
amount, unit and currency triples. -/
theorem c1_price_parsing_table :
    (getCol (process_price (oneRowPriceTable "₹ 1,200.50/Meter")) "price" = [Cell.n (1200.50 : Rat)] ∧
     getCol (process_price (oneRowPriceTable "₹ 1,200.50/Meter")) "unit" = [Cell.s "Meter"] ∧
     getCol (process_price (oneRowPriceTable "₹ 1,200.50/Meter")) "currency" = [Cell.s "INR"]) ∧
    (getCol (process_price (oneRowPriceTable "Rs. 499/Piece")) "price" = [Cell.n (499 : Rat)] ∧
     getCol (process_price (oneRowPriceTable "Rs. 499/Piece")) "unit" = [Cell.s "Piece"] ∧
     getCol (process_price (oneRowPriceTable "Rs. 499/Piece")) "currency" = [Cell.s "INR"]) ∧
    (getCol (process_price (oneRowPriceTable "$50")) "price" = [Cell.n (50 : Rat)] ∧
     getCol (process_price (oneRowPriceTable "$50")) "unit" = [Cell.null] ∧
     getCol (process_price (oneRowPriceTable "$50")) "currency" = [Cell.s "USD"]) ∧
    (getCol (process_price (oneRowPriceTable "€75.25")) "price" = [Cell.n (75.25 : Rat)] ∧
     getCol (process_price (oneRowPriceTable "€75.25")) "unit" = [Cell.null] ∧
     getCol (process_price (oneRowPriceTable "€75.25")) "currency" = [Cell.s "EUR"]) ∧
    (getCol (process_price (oneRowPriceTable "Contact for Price")) "price" = [Cell.null] ∧
     getCol (process_price (oneRowPriceTable "Contact for Price")) "unit" = [Cell.null] ∧
     getCol (process_price (oneRowPriceTable "Contact for Price")) "currency" = [Cell.null]) ∧
    (getCol (process_price (oneRowPriceTable "1500")) "price" = [Cell.n (1500 : Rat)] ∧
     getCol (process_price (oneRowPriceTable "1500")) "unit" = [Cell.null] ∧
     getCol (process_price (oneRowPriceTable "1500")) "currency" = [Cell.s "INR"]) := by
  have h1 : (1200.50 : Rat) = mkRat 24010 20 := by norm_num [Rat.mkRat_eq_div]
  have h2 : (499 : Rat) = mkRat 499 1 := by norm_num [Rat.mkRat_eq_div]
  have h3 : (50 : Rat) = mkRat 50 1 := by norm_num [Rat.mkRat_eq_div]
  have h4 : (75.25 : Rat) = mkRat 7525 100 := by norm_num [Rat.mkRat_eq_div]
  have h5 : (1500 : Rat) = mkRat 1500 1 := by norm_num [Rat.mkRat_eq_div]
  rw [h1, h2, h3, h4, h5]
  decide

/-- C2 counterexample. On the input string dollar-comma the regex matches
with a captured dollar symbol and the comma-only amount token, numeric
coercion of the de-commaed empty token yields a null amount, yet the
currency column still receives USD from the symbol map: a null amount with
a non-null currency, contradicting the claim. -/
theorem c2_counterexample :
    (pricePartsOfCell (Cell.s "$,")).amount = none ∧
    (pricePartsOfCell (Cell.s "$,")).currency = some "USD" := by
  decide

/-- Spec-side lowercasing agrees with mapping toLower. -/
theorem lowerAll_eq_map (l : List Char) : lowerAll l = l.map Char.toLower := by
  induction l with
  | nil => rfl
  | cons c cs ih => simp [lowerAll, ih]

/-- Spec-side colon removal agrees with filtering out colons. -/
theorem removeColons_eq_filter (l : List Char) :
    removeColons l = l.filter (fun c => c != ':') := by
  induction l with
  | nil => rfl
  | cons c cs ih => by_cases h : c = ':' <;> simp [removeColons, h, ih]

/-- C6 counterexample. On the label "a:b:" the code removes both colons,
producing "ab", while the claimed normalization (one trailing colon
stripped, interior colons preserved) produces "a:b". -/
theorem c6_counterexample :
    cleanKey "a:b:" = "ab" ∧ cleanKeyClaimed "a:b:" = "a:b" ∧
    cleanKey "a:b:" ≠ cleanKeyClaimed "a:b:" := by
  decide

/-- C6 amended. The inserted key equals the label with surrounding
whitespace trimmed, lowercased, and with every colon removed wherever it
occurs (not only one trailing colon). -/
theorem c6_amended_clean_key (label : String) :
    cleanKey label = cleanKeyAmendedSpec label := by
  unfold cleanKey cleanKeyAmendedSpec
  rw [lowerAll_eq_map, removeColons_eq_filter]

/-- The card loop emits exactly the detail-fetch tasks of the cards that
carry a URL, in page order. -/
theorem parseCards_eq_filterMap (cs : List ProductCard) :
    parseCards cs = cs.filterMap (fun c => c.product_url.map CrawlTask.detailFetch) := by
  induction cs with
  | nil => rfl
  | cons c rest ih => cases h : c.product_url <;> simp [parseCards, h, ih]

/-- C8. The listing handler emits one detail-fetch task per card that has
a detail URL, in page order, followed by exactly one listing-fetch task
when a next link exists and none otherwise; a page with no cards and no
next link yields no tasks. -/
theorem c8_listing_handler (p : ListingPage) :
    parse p = p.cards.filterMap (fun c => c.product_url.map CrawlTask.detailFetch) ++
      (match p.next_page_url with
       | some u => [CrawlTask.listingFetch u]
       | none => []) ∧
    (p.cards = [] → p.next_page_url = none → parse p = []) := by
  constructor
  · unfold parse
    rw [parseCards_eq_filterMap]
  · intro h1 h2
    unfold parse
    rw [h1, h2]
    rfl

/-- Witness for C8 at two concrete pages: the empty terminal page, and a
page with one linked card, one linkless card and a next link. -/
theorem c8_listing_handler_witness :
    parse ⟨[], none⟩ = [] ∧
    parse ⟨[ProductCard.mk (some "d1"), ProductCard.mk none], some "n1"⟩ =
      [CrawlTask.detailFetch "d1", CrawlTask.listingFetch "n1"] :=
  ⟨(c8_listing_handler ⟨[], none⟩).2 rfl rfl,
   ((c8_listing_handler ⟨[ProductCard.mk (some "d1"), ProductCard.mk none], some "n1"⟩).1).trans
     (by decide)⟩

/-- Effect of one loop iteration on the fabric/material field. -/
theorem applyEntry_fabric (it : SpecFields) (kv : String × String) :
    (applyEntry it kv).fabric_type = if fabricKey kv.1 then some kv.2 else it.fabric_type := by
  unfold applyEntry
  split_ifs <;> rfl

/-- Effect of one loop iteration on the pattern field. -/
theorem applyEntry_pattern (it : SpecFields) (kv : String × String) :
    (applyEntry it kv).pattern = if patternKey kv.1 then some kv.2 else it.pattern := by
  unfold applyEntry
  split_ifs <;> rfl

/-- Effect of one loop iteration on the gsm field. -/
theorem applyEntry_gsm (it : SpecFields) (kv : String × String) :
    (applyEntry it kv).gsm = if gsmKey kv.1 then some kv.2 else it.gsm := by
  unfold applyEntry
  split_ifs <;> rfl

/-- Effect of one loop iteration on the usage field. -/
theorem applyEntry_usage (it : SpecFields) (kv : String × String) :
    (applyEntry it kv).usage = if usageKey kv.1 then some kv.2 else it.usage := by
  unfold applyEntry
  split_ifs <;> rfl

/-- Effect of one loop iteration on the availability field. -/
theorem applyEntry_availability (it : SpecFields) (kv : String × String) :
    (applyEntry it kv).availability = if availabilityKey kv.1 then some kv.2 else it.availability := by
  unfold applyEntry
  split_ifs <;> rfl

/-- Folding the matching loop, each canonical field ends as the value of
the last matching entry, or as its initial value when no entry matches. -/
theorem foldl_applyEntry_lastwins (get : SpecFields → Option String) (p : String → Bool)
    (hstep : ∀ it kv, get (applyEntry it kv) = if p kv.1 then some kv.2 else get it)
    (entries : List (String × String)) :
    ∀ it, get (entries.foldl applyEntry it) =
      match entries.reverse.find? (fun e => p e.1) with
      | some e => some e.2
      | none => get it := by
  induction entries with
  | nil => intro it; rfl
  | cons kv rest ih =>
    intro it
    rw [List.foldl_cons, ih (applyEntry it kv), List.reverse_cons, List.find?_append]
    cases hf : rest.reverse.find? (fun e => p e.1) with
    | some e => simp
    | none =>
      by_cases hp : p kv.1 <;> simp [List.find?_cons, hp, hstep]

/-- find? is the head of the filtered list. -/
theorem find?_eq_head?_filter {α : Type} (p : α → Bool) (l : List α) :
    l.find? p = (l.filter p).head? := by
  induction l with
  | nil => rfl
  | cons a t ih =>
    by_cases h : p a = true
    · rw [List.find?_cons_of_pos _ h, List.filter_cons_of_pos h, List.head?_cons]
    · rw [List.find?_cons_of_neg _ (by simpa using h), List.filter_cons_of_neg (by simpa using h), ih]

/-- The last filtered element is the first match in the reversed list. -/
theorem filter_getLast?_eq_reverse_find? {α : Type} (p : α → Bool) (l : List α) :
    (l.filter p).getLast? = l.reverse.find? p := by
  rw [find?_eq_head?_filter, List.filter_reverse, List.head?_reverse]

/-- C5. Specification-matcher precedence: whenever two or more labels of
the map match the same canonical field's synonym set, that field's final
value is the value of the matching label that appears last in insertion
order (last write wins), for each of the five canonical fields. -/
theorem c5_last_match_wins (entries : List (String × String)) :
    (2 ≤ (entries.filter (fun e => fabricKey e.1)).length →
      (matchSpecs entries).fabric_type =
        ((entries.filter (fun e => fabricKey e.1)).getLast?).map (fun e => e.2)) ∧
    (2 ≤ (entries.filter (fun e => patternKey e.1)).length →
      (matchSpecs entries).pattern =
        ((entries.filter (fun e => patternKey e.1)).getLast?).map (fun e => e.2)) ∧
    (2 ≤ (entries.filter (fun e => gsmKey e.1)).length →
      (matchSpecs entries).gsm =
        ((entries.filter (fun e => gsmKey e.1)).getLast?).map (fun e => e.2)) ∧
    (2 ≤ (entries.filter (fun e => usageKey e.1)).length →
      (matchSpecs entries).usage =
        ((entries.filter (fun e => usageKey e.1)).getLast?).map (fun e => e.2)) ∧
    (2 ≤ (entries.filter (fun e => availabilityKey e.1)).length →
      (matchSpecs entries).availability =
        ((entries.filter (fun e => availabilityKey e.1)).getLast?).map (fun e => e.2)) := by
  have hfab := foldl_applyEntry_lastwins (fun it => it.fabric_type) fabricKey
    applyEntry_fabric entries initSpec
  have hpat := foldl_applyEntry_lastwins (fun it => it.pattern) patternKey
    applyEntry_pattern entries initSpec
  have hgsm := foldl_applyEntry_lastwins (fun it => it.gsm) gsmKey
    applyEntry_gsm entries initSpec
  have husg := foldl_applyEntry_lastwins (fun it => it.usage) usageKey
    applyEntry_usage entries initSpec
  have hava := foldl_applyEntry_lastwins (fun it => it.availability) availabilityKey
    applyEntry_availability entries initSpec
  refine ⟨fun _ => ?_, fun _ => ?_, fun _ => ?_, fun _ => ?_, fun _ => ?_⟩
  · unfold matchSpecs
    rw [hfab, filter_getLast?_eq_reverse_find?]
    cases hf : entries.reverse.find? (fun e => fabricKey e.1) <;> simp [initSpec]
  · unfold matchSpecs
    rw [hpat, filter_getLast?_eq_reverse_find?]
    cases hf : entries.reverse.find? (fun e => patternKey e.1) <;> simp [initSpec]
  · unfold matchSpecs
    rw [hgsm, filter_getLast?_eq_reverse_find?]
    cases hf : entries.reverse.find? (fun e => gsmKey e.1) <;> simp [initSpec]
  · unfold matchSpecs
    rw [husg, filter_getLast?_eq_reverse_find?]
    cases hf : entries.reverse.find? (fun e => usageKey e.1) <;> simp [initSpec]
  · unfold matchSpecs
    rw [hava, filter_getLast?_eq_reverse_find?]
    cases hf : entries.reverse.find? (fun e => availabilityKey e.1) <;> simp [initSpec]

/-- Witness for C5: two labels that both match every canonical field; every
field ends with the second (later) value. -/
theorem c5_last_match_wins_witness :
    (matchSpecs [(allSynLabel, "v1"), (allSynLabel ++ "x", "v2")]).fabric_type = some "v2" ∧
    (matchSpecs [(allSynLabel, "v1"), (allSynLabel ++ "x", "v2")]).pattern = some "v2" ∧
    (matchSpecs [(allSynLabel, "v1"), (allSynLabel ++ "x", "v2")]).gsm = some "v2" ∧
    (matchSpecs [(allSynLabel, "v1"), (allSynLabel ++ "x", "v2")]).usage = some "v2" ∧
    (matchSpecs [(allSynLabel, "v1"), (allSynLabel ++ "x", "v2")]).availability = some "v2" :=
  ⟨((c5_last_match_wins [(allSynLabel, "v1"), (allSynLabel ++ "x", "v2")]).1
      (by decide)).trans (by decide),
   ((c5_last_match_wins [(allSynLabel, "v1"), (allSynLabel ++ "x", "v2")]).2.1
      (by decide)).trans (by decide),
   ((c5_last_match_wins [(allSynLabel, "v1"), (allSynLabel ++ "x", "v2")]).2.2.1
      (by decide)).trans (by decide),
   ((c5_last_match_wins [(allSynLabel, "v1"), (allSynLabel ++ "x", "v2")]).2.2.2.1
      (by decide)).trans (by decide),
   ((c5_last_match_wins [(allSynLabel, "v1"), (allSynLabel ++ "x", "v2")]).2.2.2.2
      (by decide)).trans (by decide)⟩

/-- C10. The five synonym checks of one loop iteration are independent,
not mutually exclusive: a single label matching several canonical fields
assigns its value to every one of them in the same pass. -/
theorem c10_independent_checks (it : SpecFields) (k v : String) :
    (fabricKey k = true → (applyEntry it (k, v)).fabric_type = some v) ∧
    (patternKey k = true → (applyEntry it (k, v)).pattern = some v) ∧
    (gsmKey k = true → (applyEntry it (k, v)).gsm = some v) ∧
    (usageKey k = true → (applyEntry it (k, v)).usage = some v) ∧
    (availabilityKey k = true → (applyEntry it (k, v)).availability = some v) := by
  refine ⟨fun h => ?_, fun h => ?_, fun h => ?_, fun h => ?_, fun h => ?_⟩
  · rw [applyEntry_fabric]; simp [h]
  · rw [applyEntry_pattern]; simp [h]
  · rw [applyEntry_gsm]; simp [h]
  · rw [applyEntry_usage]; simp [h]
  · rw [applyEntry_availability]; simp [h]

/-- Witness for C10: a label containing synonyms of all five canonical
fields fills all five fields with its value in one pass. -/
theorem c10_independent_checks_witness :
    (applyEntry initSpec (allSynLabel, "w")).fabric_type = some "w" ∧
    (applyEntry initSpec (allSynLabel, "w")).pattern = some "w" ∧
    (applyEntry initSpec (allSynLabel, "w")).gsm = some "w" ∧
    (applyEntry initSpec (allSynLabel, "w")).usage = some "w" ∧
    (applyEntry initSpec (allSynLabel, "w")).availability = some "w" :=
  ⟨(c10_independent_checks initSpec allSynLabel "w").1 (by decide),
   (c10_independent_checks initSpec allSynLabel "w").2.1 (by decide),
   (c10_independent_checks initSpec allSynLabel "w").2.2.1 (by decide),
   (c10_independent_checks initSpec allSynLabel "w").2.2.2.1 (by decide),
   (c10_independent_checks initSpec allSynLabel "w").2.2.2.2 (by decide)⟩

/-- Filtering the deduplicated list for one key value: nothing survives
when the key was already seen, otherwise exactly the first occurrence. -/
theorem dedupGo_filter (v : Cell) (l : List Row) :
    ∀ seen : List Cell,
      (dedupGo seen l).filter (fun r => decide (urlOf r = v)) =
        if v ∈ seen then [] else (l.filter (fun r => decide (urlOf r = v))).take 1 := by
  induction l with
  | nil =>
    intro seen
    by_cases h : v ∈ seen <;> simp [dedupGo, h]
  | cons r rs ih =>
    intro seen
    simp only [dedupGo]
    by_cases hs : urlOf r ∈ seen
    · rw [if_pos hs, ih seen]
      by_cases hv : v ∈ seen
      · simp [hv]
      · rw [if_neg hv, if_neg hv]
        have hr : ¬(urlOf r = v) := fun h => hv (h ▸ hs)
        rw [List.filter_cons_of_neg (by simp [hr])]
    · rw [if_neg hs]
      by_cases hrv : urlOf r = v
      · rw [List.filter_cons_of_pos (by simp [hrv]), ih (urlOf r :: seen),
          if_pos (by rw [hrv]; exact List.mem_cons_self _ _)]
        by_cases hv : v ∈ seen
        · exact absurd (by rwa [hrv] : urlOf r ∈ seen) hs
        · rw [if_neg hv, List.filter_cons_of_pos (by simp [hrv])]
          simp
      · rw [List.filter_cons_of_neg (by simp [hrv]), ih (urlOf r :: seen)]
        by_cases hv : v ∈ seen
        · rw [if_pos (List.mem_cons_of_mem _ hv), if_pos hv]
        · rw [if_neg ?side, if_neg hv, List.filter_cons_of_neg (by simp [hrv])]
          case side =>
            intro hmem
            rcases List.mem_cons.mp hmem with h1 | h2
            · exact hrv h1.symm
            · exact hv h2

/-- C3. Dedup-first-wins: in the deduplication stage of clean_data, for any
batch holding at least two records with the same product_url, exactly one
row with that url survives, and it is (the whole of) the record that
appears earliest in batch order; all later duplicates are discarded. -/
theorem c3_dedup_first_wins (rows : List Row) (u : String)
    (h : 2 ≤ (rows.filter (fun r => decide (urlOf r = Cell.s u))).length) :
    (dedupRows rows).filter (fun r => decide (urlOf r = Cell.s u)) =
      (rows.filter (fun r => decide (urlOf r = Cell.s u))).take 1 ∧
    ((dedupRows rows).filter (fun r => decide (urlOf r = Cell.s u))).length = 1 := by
  have hg := dedupGo_filter (Cell.s u) rows []
  rw [if_neg (List.not_mem_nil _)] at hg
  unfold dedupRows
  refine ⟨hg, ?_⟩
  rw [hg, List.length_take]
  omega

/-- Witness for C3 at a concrete batch: two records share the url u1; only
the first survives deduplication. -/
theorem c3_dedup_first_wins_witness :
    2 ≤ ([rowU1a, rowU2, rowU1b].filter (fun r => decide (urlOf r = Cell.s "u1"))).length ∧
    (dedupRows [rowU1a, rowU2, rowU1b]).filter (fun r => decide (urlOf r = Cell.s "u1")) =
      ([rowU1a, rowU2, rowU1b].filter (fun r => decide (urlOf r = Cell.s "u1"))).take 1 ∧
    ((dedupRows [rowU1a, rowU2, rowU1b]).filter (fun r => decide (urlOf r = Cell.s "u1"))).length = 1 :=
  ⟨by decide,
   (c3_dedup_first_wins [rowU1a, rowU2, rowU1b] "u1" (by decide)).1,
   (c3_dedup_first_wins [rowU1a, rowU2, rowU1b] "u1" (by decide)).2⟩

/-- takeWhile is the whole list when every element satisfies the predicate. -/
theorem takeWhile_eq_self_of_all {α : Type} {p : α → Bool} {l : List α}
    (h : l.all p = true) : l.takeWhile p = l := by
  induction l with
  | nil => rfl
  | cons a t ih =>
    rw [List.all_cons, Bool.and_eq_true] at h
    rw [List.takeWhile_cons, if_pos h.1, ih h.2]

/-- The comma-stripped amount token consists of digits only. -/
theorem filter_comma_all_digit {tok : List Char} (h : tok.all digitComma = true) :
    (tok.filter (fun c => c != ',')).all Char.isDigit = true := by
  rw [List.all_eq_true] at h ⊢
  intro c hc
  rw [List.mem_filter] at hc
  have h1 := h c hc.1
  rw [digitComma, Bool.or_eq_true] at h1
  rcases h1 with h1 | h1
  · exact h1
  · rw [decide_eq_true_eq] at h1
    rw [h1] at hc
    simp at hc

/-- toNumeric on an all-digit token: NaN exactly for the empty token. -/
theorem toNumeric_all_digits (d : List Char) (hall : d.all Char.isDigit = true) :
    toNumeric d = if d.isEmpty then none else some (mkRat (digitsToNat d) 1) := by
  simp only [toNumeric]
  rw [takeWhile_eq_self_of_all hall, List.drop_length]
  rfl

/-- toNumeric on digits, a dot, digits: NaN exactly when both digit groups
are empty. -/
theorem toNumeric_digits_dot (d fr : List Char) (hd : d.all Char.isDigit = true)
    (hf : fr.all Char.isDigit = true) :
    toNumeric (d ++ '.' :: fr) =
      if d.isEmpty && fr.isEmpty then none
      else some (mkRat (digitsToNat d * 10 ^ fr.length + digitsToNat fr) (10 ^ fr.length)) := by
  have h1 : (d ++ '.' :: fr).takeWhile Char.isDigit = d := by
    rw [List.takeWhile_append, takeWhile_eq_self_of_all hd, if_pos rfl,
      List.takeWhile_cons]
    simp
  simp only [toNumeric]
  rw [h1, List.drop_left]
  simp [hf]

/-- Structure of a successful amount-token match: either no dot followed,
and the token is the digit/comma run, or a dot followed and the token is
the run, the dot, and the following digit run. -/
theorem matchNum_shape (cs num rest : List Char) (hm : matchNum cs = some (num, rest)) :
    num = cs.takeWhile digitComma ∨
    ∃ r2, cs.drop (cs.takeWhile digitComma).length = '.' :: r2 ∧
      num = cs.takeWhile digitComma ++ '.' :: r2.takeWhile Char.isDigit := by
  simp only [matchNum] at hm
  by_cases he : (cs.takeWhile digitComma).isEmpty = true
  · rw [if_pos he] at hm
    exact absurd hm (by simp)
  · rw [if_neg he] at hm
    split at hm
    · next r2 heq =>
      right
      have h1 := (Prod.mk.injEq _ _ _ _ ▸ Option.some.inj hm).1
      exact ⟨r2, heq, h1.symm⟩
    · next _ _ =>
      left
      have h1 := (Prod.mk.injEq _ _ _ _ ▸ Option.some.inj hm).1
      exact h1.symm

/-- When the comma-stripped amount token of a regex match coerces to NaN,
the token held no digit at all. -/
theorem matchNum_none_digit (cs num rest : List Char)
    (hm : matchNum cs = some (num, rest))
    (hnone : toNumeric (num.filter (fun c => c != ',')) = none) :
    num.all (fun c => !c.isDigit) = true := by
  have htokall : (cs.takeWhile digitComma).all digitComma = true := List.all_takeWhile
  have hcomma :
      ∀ tok : List Char, tok.all digitComma = true →
        tok.filter (fun c => c != ',') = [] → tok.all (fun c => !c.isDigit) = true := by
    intro tok _ hfil
    rw [List.all_eq_true]
    intro c hc
    have := (List.filter_eq_nil_iff.mp hfil) c hc
    simp only [bne_iff_ne, ne_eq, not_not] at this
    rw [this]
    decide
  rcases matchNum_shape cs num rest hm with hnum | ⟨r2, hdrop, hnum⟩
  · rw [hnum] at hnone ⊢
    rw [toNumeric_all_digits _ (filter_comma_all_digit htokall)] at hnone
    by_cases hie : ((cs.takeWhile digitComma).filter (fun c => c != ',')).isEmpty = true
    · exact hcomma _ htokall (List.isEmpty_iff.mp hie)
    · rw [if_neg hie] at hnone
      exact absurd hnone (by simp)
  · rw [hnum] at hnone ⊢
    have hfr : (r2.takeWhile Char.isDigit).all Char.isDigit = true := List.all_takeWhile
    have hfilfr : (r2.takeWhile Char.isDigit).filter (fun c => c != ',') =
        r2.takeWhile Char.isDigit := by
      rw [List.filter_eq_self]
      intro a ha
      have := (List.all_eq_true.mp hfr) a ha
      simp only [bne_iff_ne, ne_eq]
      intro hEq
      rw [hEq] at this
      exact absurd this (by decide)
    have hdot : (('.' : Char) != ',') = true := by decide
    rw [List.filter_append, List.filter_cons, if_pos hdot, hfilfr,
      toNumeric_digits_dot _ _ (filter_comma_all_digit htokall) hfr] at hnone
    by_cases hie : (((cs.takeWhile digitComma).filter (fun c => c != ',')).isEmpty &&
        (r2.takeWhile Char.isDigit).isEmpty) = true
    · rw [Bool.and_eq_true] at hie
      rw [List.all_append, Bool.and_eq_true]
      refine ⟨hcomma _ htokall (List.isEmpty_iff.mp hie.1), ?_⟩
      rw [List.isEmpty_iff.mp hie.2]
      decide
    · rw [if_neg hie] at hnone
      exact absurd hnone (by simp)

/-- The amount group of a successful matchAfterSym comes from matchNum. -/
theorem matchAfterSym_num (cs num : List Char) (u : Option (List Char))
    (h : matchAfterSym cs = some (num, u)) :
    ∃ rest, matchNum (cs.dropWhile wsChar) = some (num, rest) := by
  unfold matchAfterSym at h
  cases hm : matchNum (cs.dropWhile wsChar) with
  | none =>
    rw [hm] at h
    exact absurd h (by simp)
  | some p =>
    obtain ⟨n2, r2⟩ := p
    rw [hm] at h
    have := Option.some.inj h
    have hn : n2 = num := (Prod.mk.injEq _ _ _ _ ▸ this).1
    exact ⟨r2, by rw [hn]⟩

/-- The amount group of a successful alternation attempt comes from
matchNum on some suffix. -/
theorem tryWithSym_num (cs : List Char) (syms : List CurrencySym) (m : PMatch)
    (h : tryWithSym cs syms = some m) :
    ∃ cs2 rest, matchNum cs2 = some (m.num, rest) := by
  induction syms with
  | nil =>
    simp only [tryWithSym] at h
    cases hma : matchAfterSym cs with
    | none =>
      rw [hma] at h
      exact absurd h (by simp)
    | some p =>
      obtain ⟨num, u⟩ := p
      rw [hma] at h
      have hm : m = ⟨none, num, u⟩ := (Option.some.inj h).symm
      obtain ⟨rest, hr⟩ := matchAfterSym_num cs num u hma
      exact ⟨cs.dropWhile wsChar, rest, by rw [hm, hr]⟩
  | cons sy rest ih =>
    simp only [tryWithSym] at h
    by_cases hp : (symChars sy).isPrefixOf cs
    · rw [if_pos hp] at h
      cases hma : matchAfterSym (cs.drop (symChars sy).length) with
      | some p =>
        obtain ⟨num, u⟩ := p
        rw [hma] at h
        have hm : m = ⟨some sy, num, u⟩ := (Option.some.inj h).symm
        obtain ⟨r2, hr⟩ := matchAfterSym_num _ num u hma
        exact ⟨(cs.drop (symChars sy).length).dropWhile wsChar, r2, by rw [hm, hr]⟩
      | none =>
        rw [hma] at h
        exact ih h
    · rw [if_neg hp] at h
      exact ih h

/-- The amount group of any successful search comes from matchNum. -/
theorem searchFrom_num (cs : List Char) (m : PMatch) (h : searchFrom cs = some m) :
    ∃ cs2 rest, matchNum cs2 = some (m.num, rest) := by
  induction cs with
  | nil => exact absurd h (by simp [searchFrom])
  | cons c rest ih =>
    simp only [searchFrom] at h
    cases hma : matchAt (c :: rest) with
    | some m2 =>
      rw [hma] at h
      have : m2 = m := Option.some.inj h
      subst this
      exact tryWithSym_num (c :: rest) _ m2 hma
    | none =>
      rw [hma] at h
      exact ih h

/-- C2 amended. Whenever the parsed amount is null, the currency is null as
well, except in the one remaining case: the regex matched with a captured
currency symbol but an amount token containing no digit (commas only,
possibly followed by a dot), whose numeric coercion fails. -/
theorem c2_amended_null_amount_currency (s : String)
    (h : (pricePartsOfCell (Cell.s s)).amount = none) :
    (pricePartsOfCell (Cell.s s)).currency = none ∨
    ∃ m, searchFrom s.data = some m ∧ m.sym.isSome = true ∧
      m.num.all (fun c => !c.isDigit) = true := by
  simp only [pricePartsOfCell] at h ⊢
  cases hs : searchFrom s.data with
  | none => exact Or.inl rfl
  | some m =>
    rw [hs] at h
    have hA : toNumeric (m.num.filter (fun c => c != ',')) = none := h
    cases hsym : m.sym with
    | none =>
      left
      simp [priceOfMatch, hsym, hA]
    | some sy =>
      right
      obtain ⟨cs2, rest, hmn⟩ := searchFrom_num s.data m hs
      exact ⟨m, rfl, by simp [hsym], matchNum_none_digit cs2 m.num rest hmn hA⟩

/-- Witness for C2 amended at the concrete input dollar-comma: the amount
is null and the exceptional disjunct is the one that holds. -/
theorem c2_amended_null_amount_currency_witness :
    (pricePartsOfCell (Cell.s "$,")).amount = none ∧
    ((pricePartsOfCell (Cell.s "$,")).currency = none ∨
     ∃ m, searchFrom "$,".data = some m ∧ m.sym.isSome = true ∧
       m.num.all (fun c => !c.isDigit) = true) :=
  ⟨by decide, c2_amended_null_amount_currency "$," (by decide)⟩

/-- list.remove raises ValueError when the element is absent. -/
theorem pyRemove_not_mem (l : List String) (x : String) (h : x ∉ l) :
    pyRemove l x = Except.error ("ValueError: " ++ x) := by
  induction l with
  | nil => rfl
  | cons y ys ih =>
    rw [List.mem_cons, not_or] at h
    simp only [pyRemove]
    rw [if_neg (fun hh => h.1 hh.symm), ih h.2]

/-- list.remove succeeds on a present element and returns a sublist of the
original elements. -/
theorem pyRemove_mem_ok (l : List String) (x : String) (h : x ∈ l) :
    ∃ l2, pyRemove l x = Except.ok l2 ∧ l2 ⊆ l := by
  induction l with
  | nil => exact absurd h (List.not_mem_nil x)
  | cons y ys ih =>
    by_cases hy : y = x
    · exact ⟨ys, by simp [pyRemove, hy], fun a ha => List.mem_cons_of_mem _ ha⟩
    · have hx : x ∈ ys := by
        rcases List.mem_cons.mp h with h1 | h2
        · exact absurd h1.symm hy
        · exact h2
      obtain ⟨l2, h1, h2⟩ := ih hx
      refine ⟨y :: l2, by simp [pyRemove, hy, h1], ?_⟩
      intro a ha
      rcases List.mem_cons.mp ha with rfl | hh
      · exact List.mem_cons_self _ _
      · exact List.mem_cons_of_mem _ (h2 hh)

/-- The column just assigned is present afterwards. -/
theorem mem_addCol_self (cols : List String) (n : String) : n ∈ addCol cols n := by
  unfold addCol
  by_cases h : n ∈ cols <;> simp [h]

/-- Assigning a column keeps the existing columns. -/
theorem mem_addCol_of_mem (cols : List String) (n m : String) (h : m ∈ cols) :
    m ∈ addCol cols n := by
  unfold addCol
  by_cases hn : n ∈ cols <;> simp [hn, h]

/-- Membership after assigning a possibly new column. -/
theorem mem_addCol_iff (cols : List String) (n m : String) :
    m ∈ addCol cols n ↔ m ∈ cols ∨ m = n := by
  unfold addCol
  by_cases hn : n ∈ cols
  · rw [if_pos hn]
    constructor
    · exact Or.inl
    · rintro (h | rfl)
      · exact h
      · exact hn
  · rw [if_neg hn]
    simp

/-- C9. When a non-empty raw batch carries its source url column but no
price column, clean_data raises: process_price skips (no unit or currency
column is created), and the column-reorder step's removal of "price" from
the column list raises ValueError. -/
theorem c9_missing_price_raises (t : Table)
    (hr : t.rows ≠ []) (hu : "product_url" ∈ t.cols) (hp : "price" ∉ t.cols) :
    clean_data t = Except.error ("ValueError: " ++ "price") := by
  have hc : t.cols ≠ [] := by
    intro h
    rw [h] at hu
    exact List.not_mem_nil _ hu
  unfold clean_data
  rw [if_neg (by simp [List.isEmpty_iff, hr, hc])]
  unfold dedupStep
  rw [if_pos hu]
  have hp2 : "price" ∉ (idStep ⟨t.cols, dedupRows t.rows⟩).cols := by
    simp only [idStep]
    intro hmem
    rcases (mem_addCol_iff t.cols "product_id" "price").mp hmem with h | h
    · exact hp h
    · exact absurd h (by decide)
  have hpid : "product_id" ∈ (dropStep (idStep ⟨t.cols, dedupRows t.rows⟩)).cols := by
    simp only [dropStep, idStep, List.mem_filter]
    exact ⟨mem_addCol_self _ _, by decide⟩
  obtain ⟨l1, hl1, hsub⟩ := pyRemove_mem_ok _ _ hpid
  have hpl1 : "price" ∉ l1 := by
    intro hh
    have h1 := hsub hh
    simp only [dropStep, List.mem_filter] at h1
    exact hp2 h1.1
  show reorderStep (dropStep (process_price (idStep ⟨t.cols, dedupRows t.rows⟩))) =
    Except.error ("ValueError: " ++ "price")
  unfold process_price
  rw [if_neg hp2]
  unfold reorderStep
  simp only [hl1, pyRemove_not_mem l1 "price" hpl1]

/-- Witness for C9 at a concrete one-record batch without a price field. -/
theorem c9_missing_price_raises_witness :
    tNoPrice.rows ≠ [] ∧ "product_url" ∈ tNoPrice.cols ∧ "price" ∉ tNoPrice.cols ∧
    clean_data tNoPrice = Except.error ("ValueError: " ++ "price") :=
  ⟨by decide, by decide, by decide,
   c9_missing_price_raises tNoPrice (by decide) (by decide) (by decide)⟩

/-- Assigning identifiers keeps the number of rows. -/
theorem assignIds_length (rows : List Row) : ∀ i, (assignIds rows i).length = rows.length := by
  induction rows with
  | nil => intro i; rfl
  | cons r rs ih => intro i; simp [assignIds, ih]

/-- After assigning identifiers from position i, row k carries i + k + 1. -/
theorem assignIds_rget (rows : List Row) :
    ∀ i, (assignIds rows i).map (fun r => rget r "product_id") =
      (List.range rows.length).map (fun k => Cell.n (mkRat (i + k + 1 : Nat) 1)) := by
  induction rows with
  | nil => intro i; rfl
  | cons r rs ih =>
    intro i
    simp only [assignIds, List.length_cons, List.map_cons]
    rw [rget_rset_self, ih (i + 1), List.range_succ_eq_map, List.map_cons, List.map_map]
    congr 1
    apply List.map_congr_left
    intro k _
    simp only [Function.comp, Nat.succ_eq_add_one]
    congr 2
    omega

/-- The price-column rewrite leaves every other field unchanged. -/
theorem rget_priceRowUpdate (r : Row) (m : String)
    (h1 : m ≠ "price") (h2 : m ≠ "unit") (h3 : m ≠ "currency") :
    rget (priceRowUpdate r) m = rget r m := by
  simp only [priceRowUpdate]
  rw [rget_rset_ne _ _ _ _ (Ne.symm h3), rget_rset_ne _ _ _ _ (Ne.symm h2),
    rget_rset_ne _ _ _ _ (Ne.symm h1)]

/-- Dropping the scrape-only bindings leaves every kept field unchanged. -/
theorem rget_dropRow (r : Row) (m : String) (hm : dropNames.contains m = false) :
    rget (r.filter (fun p => !(dropNames.contains p.1))) m = rget r m := by
  induction r with
  | nil => rfl
  | cons p rest ih =>
    obtain ⟨k, w⟩ := p
    by_cases hk : dropNames.contains k = true
    · have hkm : k ≠ m := by
        intro h
        rw [h, hm] at hk
        exact Bool.false_ne_true hk
      rw [List.filter_cons, if_neg (by rw [hk]; decide)]
      rw [show rget ((k, w) :: rest) m = rget rest m from by simp [rget, hkm]]
      exact ih
    · have hk2 : dropNames.contains k = false := Bool.eq_false_iff.mpr hk
      rw [List.filter_cons, if_pos (by rw [hk2]; decide)]
      by_cases hkm : k = m
      · simp [rget, hkm]
      · rw [show rget ((k, w) :: rest) m = rget rest m from by simp [rget, hkm],
          show rget ((k, w) :: List.filter (fun p => !dropNames.contains p.1) rest) m =
            rget (List.filter (fun p => !dropNames.contains p.1) rest) m from by
              simp [rget, hkm]]
        exact ih

/-- Reindexing along a column list that contains the field leaves its
value unchanged. -/
theorem rget_reindexRow (cols : List String) (r : Row) (m : String) (hm : m ∈ cols) :
    rget (reindexRow cols r) m = rget r m := by
  induction cols with
  | nil => exact absurd hm (List.not_mem_nil m)
  | cons c cs ih =>
    simp only [reindexRow, List.map_cons]
    by_cases hc : c = m
    · subst hc
      simp [rget]
    · have hm2 : m ∈ cs := by
        rcases List.mem_cons.mp hm with h | h
        · exact absurd h.symm hc
        · exact h
      rw [show rget ((c, rget r c) :: List.map (fun c => (c, rget r c)) cs) m =
          rget (List.map (fun c => (c, rget r c)) cs) m from by simp [rget, hc]]
      exact ih hm2

/-- Successful column reordering: the final column list starts with the
identifier and ends with price, unit, currency, and the rows are the input
rows reindexed along that final column list. -/
theorem reorderStep_ok (t2 u : Table) (h : reorderStep t2 = Except.ok u) :
    ∃ l4, u.cols = "product_id" :: (l4 ++ ["price", "unit", "currency"]) ∧
      u.rows = t2.rows.map (reindexRow u.cols) := by
  unfold reorderStep at h
  cases h1 : pyRemove t2.cols "product_id" with
  | error e =>
    simp only [h1] at h
    exact absurd h (by simp)
  | ok l1 =>
    simp only [h1] at h
    cases h2 : pyRemove l1 "price" with
    | error e =>
    simp only [h2] at h
    exact absurd h (by simp)
    | ok l2 =>
      simp only [h2] at h
      cases h3 : pyRemove l2 "unit" with
      | error e =>
    simp only [h3] at h
    exact absurd h (by simp)
      | ok l3 =>
        simp only [h3] at h
        cases h4 : pyRemove l3 "currency" with
        | error e =>
    simp only [h4] at h
    exact absurd h (by simp)
        | ok l4 =>
          simp only [h4, Except.ok.injEq] at h
          refine ⟨l4, ?_, ?_⟩
          · rw [← h]
          · rw [← h]

/-- The number of rows survives process_price. -/
theorem process_price_rows_length (x : Table) :
    (process_price x).rows.length = x.rows.length := by
  unfold process_price
  by_cases h : "price" ∈ x.cols <;> simp [h]

/-- C4. Dense identifiers: whenever clean_data succeeds on a batch with a
non-empty column set, the product_id column of the canonical output is
exactly 1, 2, ..., N in row order, N the number of output rows. -/
theorem c4_dense_identifiers (t u : Table) (hc : t.cols ≠ [])
    (hok : clean_data t = Except.ok u) :
    getCol u "product_id" =
      (List.range u.rows.length).map (fun k => Cell.n (mkRat (k + 1 : Nat) 1)) := by
  unfold clean_data at hok
  by_cases hre : (t.rows.isEmpty || t.cols.isEmpty) = true
  · rw [if_pos hre] at hok
    simp only [Except.ok.injEq] at hok
    have hrows : t.rows = [] := by
      rcases Bool.or_eq_true _ _ |>.mp hre with h | h
      · exact List.isEmpty_iff.mp h
      · exact absurd (List.isEmpty_iff.mp h) hc
    rw [← hok]
    simp [getCol, hrows]
  · rw [if_neg hre] at hok
    by_cases hu2 : "product_url" ∈ t.cols
    swap
    · unfold dedupStep at hok
      rw [if_neg hu2] at hok
      exact absurd hok (by simp)
    · unfold dedupStep at hok
      rw [if_pos hu2] at hok
      have hok2 : reorderStep (dropStep (process_price (idStep ⟨t.cols, dedupRows t.rows⟩))) =
          Except.ok u := hok
      obtain ⟨l4, hcols, hrows⟩ := reorderStep_ok _ u hok2
      have hpidmem : "product_id" ∈ u.cols := by
        rw [hcols]
        exact List.mem_cons_self _ _
      have hrows4 :
          (dropStep (process_price (idStep ⟨t.cols, dedupRows t.rows⟩))).rows.map
              (fun r => rget r "product_id") =
            (assignIds (dedupRows t.rows) 0).map (fun r => rget r "product_id") := by
        by_cases hpp : "price" ∈ addCol t.cols "product_id"
        · simp only [idStep, process_price, dropStep, if_pos hpp, List.map_map]
          apply List.map_congr_left
          intro r _
          simp only [Function.comp]
          rw [rget_dropRow _ _ (by decide),
            rget_priceRowUpdate _ _ (by decide) (by decide) (by decide)]
        · simp only [idStep, process_price, dropStep, if_neg hpp, List.map_map]
          apply List.map_congr_left
          intro r _
          simp only [Function.comp]
          rw [rget_dropRow _ _ (by decide)]
      have hlen : u.rows.length = (dedupRows t.rows).length := by
        rw [hrows, List.length_map]
        simp only [dropStep, List.length_map]
        rw [process_price_rows_length]
        simp only [idStep]
        exact assignIds_length _ 0
      simp only [getCol]
      rw [hrows, List.map_map]
      simp only [Function.comp_def]
      have hcongr :
          (dropStep (process_price (idStep ⟨t.cols, dedupRows t.rows⟩))).rows.map
              (fun r => rget (reindexRow u.cols r) "product_id") =
            (dropStep (process_price (idStep ⟨t.cols, dedupRows t.rows⟩))).rows.map
              (fun r => rget r "product_id") :=
        List.map_congr_left (fun r _ => rget_reindexRow u.cols r "product_id" hpidmem)
      rw [hcongr, hrows4, assignIds_rget]
      rw [show (List.map (reindexRow u.cols)
          (dropStep (process_price (idStep ⟨t.cols, dedupRows t.rows⟩))).rows).length =
          (dedupRows t.rows).length from by rw [← hrows]; exact hlen]
      apply List.map_congr_left
      intro k _
      congr 2
      omega

/-- Witness for C4 at a concrete three-record batch (one duplicated url):
the surviving two rows get identifiers one and two. -/
theorem c4_dense_identifiers_witness :
    tExample.cols ≠ [] ∧
    ∃ u, clean_data tExample = Except.ok u ∧
      getCol u "product_id" =
        (List.range u.rows.length).map (fun k => Cell.n (mkRat (k + 1 : Nat) 1)) :=
  ⟨by decide, _, rfl, c4_dense_identifiers tExample _ (by decide) rfl⟩

/-- Assigning a column preserves distinctness of the column names. -/
theorem addCol_nodup (l : List String) (n : String) (h : l.Nodup) : (addCol l n).Nodup := by
  unfold addCol
  by_cases hn : n ∈ l
  · rw [if_pos hn]
    exact h
  · rw [if_neg hn]
    simp [List.nodup_append, h, hn]

/-- On a duplicate-free list, list.remove of a present element is exactly
the filter that drops it. -/
theorem pyRemove_eq (l : List String) (x : String) (hn : l.Nodup) (hm : x ∈ l) :
    pyRemove l x = Except.ok (l.filter (fun c => c != x)) := by
  induction l with
  | nil => exact absurd hm (List.not_mem_nil x)
  | cons y ys ih =>
    rw [List.nodup_cons] at hn
    by_cases hy : y = x
    · subst hy
      have hall : ∀ a ∈ ys, (a != y) = true := by
        intro a ha
        simp only [bne_iff_ne, ne_eq]
        intro hEq
        rw [hEq] at ha
        exact hn.1 ha
      rw [show pyRemove (y :: ys) y = Except.ok ys from by simp [pyRemove]]
      rw [List.filter_cons, if_neg (fun h => absurd rfl (bne_iff_ne.mp h)),
        List.filter_eq_self.mpr hall]
    · have hx : x ∈ ys := by
        rcases List.mem_cons.mp hm with h1 | h1
        · exact absurd h1.symm hy
        · exact h1
      simp only [pyRemove, if_neg hy, ih hn.2 hx]
      rw [List.filter_cons, if_pos (by simp only [bne_iff_ne, ne_eq]; exact hy)]

/-- Filtering with a predicate that rejects the assigned name erases the
effect of the assignment on the column list. -/
theorem filter_addCol (l : List String) (n : String) (p : String → Bool) (hp : p n = false) :
    (addCol l n).filter p = l.filter p := by
  unfold addCol
  by_cases h : n ∈ l
  · rw [if_pos h]
  · rw [if_neg h, List.filter_append]
    simp [List.filter_cons, hp]

/-- C7. Column order invariant: whenever clean_data succeeds on a non-empty
batch with duplicate-free columns, the output columns are the identifier
first, then the surviving attribute columns in their original relative
order, then price, unit and currency last. -/
theorem c7_column_order (t u : Table) (hnd : t.cols.Nodup) (hr : t.rows ≠ [])
    (hc : t.cols ≠ []) (hok : clean_data t = Except.ok u) :
    u.cols = "product_id" :: (t.cols.filter keepCol ++ ["price", "unit", "currency"]) := by
  unfold clean_data at hok
  rw [if_neg (by simp [List.isEmpty_iff, hr, hc])] at hok
  by_cases hu2 : "product_url" ∈ t.cols
  swap
  · unfold dedupStep at hok
    rw [if_neg hu2] at hok
    exact absurd hok (by simp)
  unfold dedupStep at hok
  rw [if_pos hu2] at hok
  have hok2 : reorderStep (dropStep (process_price (idStep ⟨t.cols, dedupRows t.rows⟩))) =
      Except.ok u := hok
  have hnd2 : (addCol t.cols "product_id").Nodup := addCol_nodup _ _ hnd
  by_cases hpp : "price" ∈ addCol t.cols "product_id"
  swap
  · exfalso
    have hdropcols : (dropStep (process_price (idStep ⟨t.cols, dedupRows t.rows⟩))).cols =
        (addCol t.cols "product_id").filter (fun c => !(dropNames.contains c)) := by
      simp only [dropStep, process_price, idStep, if_neg hpp]
    have hm1 : "product_id" ∈
        (addCol t.cols "product_id").filter (fun c => !(dropNames.contains c)) := by
      rw [List.mem_filter]
      exact ⟨mem_addCol_self _ _, by decide⟩
    obtain ⟨l1, hl1, hsub⟩ := pyRemove_mem_ok _ "product_id" hm1
    have hpl1 : "price" ∉ l1 := by
      intro hh
      have h1 := hsub hh
      rw [List.mem_filter] at h1
      exact hpp h1.1
    unfold reorderStep at hok2
    rw [hdropcols] at hok2
    simp only [hl1, pyRemove_not_mem l1 "price" hpl1] at hok2
    exact absurd hok2 (by simp)
  · have hnd3 : (addCol (addCol (addCol t.cols "product_id") "unit") "currency").Nodup :=
      addCol_nodup _ _ (addCol_nodup _ _ hnd2)
    have hdropcols : (dropStep (process_price (idStep ⟨t.cols, dedupRows t.rows⟩))).cols =
        (addCol (addCol (addCol t.cols "product_id") "unit") "currency").filter
          (fun c => !(dropNames.contains c)) := by
      simp only [dropStep, process_price, idStep, if_pos hpp]
    have hndD : ((addCol (addCol (addCol t.cols "product_id") "unit") "currency").filter
        (fun c => !(dropNames.contains c))).Nodup := List.Nodup.filter _ hnd3
    have hmD_pid : "product_id" ∈
        (addCol (addCol (addCol t.cols "product_id") "unit") "currency").filter
          (fun c => !(dropNames.contains c)) := by
      rw [List.mem_filter]
      exact ⟨mem_addCol_of_mem _ _ _ (mem_addCol_of_mem _ _ _ (mem_addCol_self _ _)), by decide⟩
    have hmD_price : "price" ∈
        (addCol (addCol (addCol t.cols "product_id") "unit") "currency").filter
          (fun c => !(dropNames.contains c)) := by
      rw [List.mem_filter]
      exact ⟨mem_addCol_of_mem _ _ _ (mem_addCol_of_mem _ _ _ hpp), by decide⟩
    have hmD_unit : "unit" ∈
        (addCol (addCol (addCol t.cols "product_id") "unit") "currency").filter
          (fun c => !(dropNames.contains c)) := by
      rw [List.mem_filter]
      exact ⟨mem_addCol_of_mem _ _ _ (mem_addCol_self _ _), by decide⟩
    have hmD_cur : "currency" ∈
        (addCol (addCol (addCol t.cols "product_id") "unit") "currency").filter
          (fun c => !(dropNames.contains c)) := by
      rw [List.mem_filter]
      exact ⟨mem_addCol_self _ _, by decide⟩
    have hr1 := pyRemove_eq _ "product_id" hndD hmD_pid
    have hnd_1 := List.Nodup.filter (fun c => c != "product_id") hndD
    have hm_price1 : "price" ∈
        ((addCol (addCol (addCol t.cols "product_id") "unit") "currency").filter
          (fun c => !(dropNames.contains c))).filter (fun c => c != "product_id") := by
      rw [List.mem_filter]
      exact ⟨hmD_price, by decide⟩
    have hr2 := pyRemove_eq _ "price" hnd_1 hm_price1
    have hnd_2 := List.Nodup.filter (fun c => c != "price") hnd_1
    have hm_unit2 : "unit" ∈
        (((addCol (addCol (addCol t.cols "product_id") "unit") "currency").filter
          (fun c => !(dropNames.contains c))).filter (fun c => c != "product_id")).filter
            (fun c => c != "price") := by
      rw [List.mem_filter, List.mem_filter]
      exact ⟨⟨hmD_unit, by decide⟩, by decide⟩
    have hr3 := pyRemove_eq _ "unit" hnd_2 hm_unit2
    have hnd_3 := List.Nodup.filter (fun c => c != "unit") hnd_2
    have hm_cur3 : "currency" ∈
        ((((addCol (addCol (addCol t.cols "product_id") "unit") "currency").filter
          (fun c => !(dropNames.contains c))).filter (fun c => c != "product_id")).filter
            (fun c => c != "price")).filter (fun c => c != "unit") := by
      rw [List.mem_filter, List.mem_filter, List.mem_filter]
      exact ⟨⟨⟨hmD_cur, by decide⟩, by decide⟩, by decide⟩
    have hr4 := pyRemove_eq _ "currency" hnd_3 hm_cur3
    unfold reorderStep at hok2
    rw [hdropcols] at hok2
    simp only [hr1, hr2, hr3, hr4, Except.ok.injEq] at hok2
    rw [← hok2]
    have hmid :
        (((((addCol (addCol (addCol t.cols "product_id") "unit") "currency").filter
          (fun c => !(dropNames.contains c))).filter (fun c => c != "product_id")).filter
            (fun c => c != "price")).filter (fun c => c != "unit")).filter
              (fun c => c != "currency") = t.cols.filter keepCol := by
      simp only [List.filter_filter]
      rw [filter_addCol _ _ _ (by decide), filter_addCol _ _ _ (by decide),
        filter_addCol _ _ _ (by decide)]
      apply List.filter_congr
      intro c _
      simp only [keepCol, reorderNames, dropNames, List.cons_append, List.nil_append,
        List.contains_cons, List.contains_nil, Bool.or_false]
      by_cases h1 : c = "product_id" <;> by_cases h2 : c = "price" <;>
        by_cases h3 : c = "unit" <;> by_cases h4 : c = "currency" <;>
        simp [h1, h2, h3, h4, bne, beq_iff_eq] <;> ac_rfl
    rw [hmid]

/-- Witness for C7 at a concrete three-record batch: the output columns are
the identifier, the surviving attribute column, then price, unit, currency. -/
theorem c7_column_order_witness :
    tExample.cols.Nodup ∧ tExample.rows ≠ [] ∧ tExample.cols ≠ [] ∧
    ∃ u, clean_data tExample = Except.ok u ∧
      u.cols = "product_id" :: (tExample.cols.filter keepCol ++ ["price", "unit", "currency"]) :=
  ⟨by decide, by decide, by decide, _, rfl,
   c7_column_order tExample _ (by decide) (by decide) (by decide) rfl⟩

end Indiamart
